import Mathlib

/-!
Verification of the maggma repository specification against its sources.

Part 1 embeds `SortQuery.query` from `src/maggma/api/query_operator/sorting.py`.
Python strings are modelled as lists of characters; the Python dict built by
successive `sort.update` calls is modelled as an insertion-ordered association
list where updating an existing key overwrites its value in place and a new key
is appended at the end, exactly the semantics of a Python dict.
-/

namespace Maggma

/-- A Python string, modelled as its list of characters. -/
abbrev Str := List Char

/-- Helper to write string literals as character lists. -/
def str (s : String) : Str := s.toList

/-- Python `s.split(",")` for a single-character separator: splitting the empty
string gives `[""]`, and every comma produces a boundary, so consecutive or
trailing commas produce empty segments. -/
def splitOnComma : Str → List Str
  | [] => [[]]
  | c :: cs =>
    let r := splitOnComma cs
    if c = ',' then [] :: r
    else
      match r with
      | [] => [[c]]
      | s :: ss => (c :: s) :: ss

/-- Insertion-ordered dictionary update, the semantics of a Python
`sort.update` call with a single key: an existing key keeps its position but
its value is overwritten; a fresh key is appended at the end. -/
def dictUpdate (d : List (Str × Int)) (k : Str) (v : Int) : List (Str × Int) :=
  if k ∈ d.map Prod.fst then
    d.map (fun p => if p.1 = k then (k, v) else p)
  else d ++ [(k, v)]

/-- One iteration of the loop body of `SortQuery.query`: Python
`sort_field[0]` raises on an empty segment (modelled as `none`); a leading
`'-'` is stripped and maps the field to `-1`, otherwise the field maps to `1`. -/
def applySegment (sort : List (Str × Int)) (seg : Str) : Option (List (Str × Int)) :=
  match seg with
  | [] => none
  | c :: rest =>
    if c = '-' then some (dictUpdate sort rest (-1))
    else some (dictUpdate sort (c :: rest) 1)

/-- The loop of `SortQuery.query` over the comma-split segments. -/
def foldSegments (sort : List (Str × Int)) : List Str → Option (List (Str × Int))
  | [] => some sort
  | seg :: rest =>
    match applySegment sort seg with
    | none => none
    | some s => foldSegments s rest

/-- The return value of `SortQuery.query`: the Python dict with the single
key `"sort"` holding the sort dict. -/
structure STORE_PARAMS where
  sort : List (Str × Int)
deriving DecidableEq, Repr

/-- `SortQuery.query` from `src/maggma/api/query_operator/sorting.py`.
`sort_fields` is an optional string; Python `if sort_fields:` is false both
for `None` and for the empty string, in which case the sort dict stays empty.
A `none` result models an uncaught `IndexError` escaping the loop. -/
def SortQuery.query (sort_fields : Option Str) : Option STORE_PARAMS :=
  match sort_fields with
  | none => some ⟨[]⟩
  | some s =>
    if s = [] then some ⟨[]⟩
    else (foldSegments [] (splitOnComma s)).map fun d => ⟨d⟩

/-- The field name and direction a single nonempty segment contributes. -/
def stripPair (seg : Str) : Str × Int :=
  match seg with
  | [] => ([], 1)
  | c :: rest => if c = '-' then (rest, -1) else (c :: rest, 1)

/-- The field name a segment contributes. -/
def stripName (seg : Str) : Str := (stripPair seg).1

/-- First-match lookup in an insertion-ordered dictionary. -/
def lookupDict : List (Str × Int) → Str → Option Int
  | [], _ => none
  | p :: rest, f => if f = p.1 then some p.2 else lookupDict rest f

/-- Left-biased choice on optional directions. -/
def optOr : Option Int → Option Int → Option Int
  | some x, _ => some x
  | none, b => b

/-- The direction contributed by the LAST pair of the list whose field is `f`,
if any. -/
def lastDirection : List (Str × Int) → Str → Option Int
  | [], _ => none
  | p :: rest, f => optOr (lastDirection rest f) (if f = p.1 then some p.2 else none)

/-- Append each new key at its first occurrence, keeping existing keys in
place: the key order produced by repeated Python dict updates. -/
def mergeKeys (ks : List Str) : List Str → List Str
  | [] => ks
  | f :: rest => if f ∈ ks then mergeKeys ks rest else mergeKeys (ks ++ [f]) rest

/-!
Part 2 models the FileStore. Modelled from the spec: the implementation of
the `File` and `FileStore` classes (`maggma/stores/file_store.py`) is not
among the sources, only its test suite is, so the definitions below follow
the spec's data model (section 3), component design (section 4) and external
interfaces (section 6).
-/

/-- A root-relative path: the list of path components from the tracked root
down to the file, the file name last. -/
abbrev RelPath := List Str

/-- User-supplied metadata: a mapping of keys to values. -/
abbrev Metadata := List (Str × Str)

/-- Modelled from the spec: a regular file on disk under the tracked root,
as the crawler sees it: root-relative path, content bytes, and modification
time (already normalized to UTC, modelled as a number). -/
structure FSFile where
  relpath : RelPath
  content : List Nat
  mtime : Nat
deriving DecidableEq, Repr

/-- Modelled from the spec: the durable state one store instance observes at
connect time: the regular files under the root, and the parsed content of
the metadata sidecar document (one record per file_id). -/
structure FileSystem where
  files : List FSFile
  sidecarData : List (Str × Metadata)
deriving DecidableEq, Repr

/-- Modelled from the spec: the recognized configuration surface of a
FileStore: maximum traversal depth (unbounded when unset), include-file
patterns, sidecar filename, and the read-only flag. -/
structure FileStoreConfig where
  max_depth : Option Nat
  track_files : List Str
  json_name : Str
  read_only : Bool
deriving DecidableEq, Repr

/-- Fuel-indexed glob matcher: a star matches any run of characters, a
question mark one character, anything else itself. The fuel only serves
structural recursion and is always supplied large enough. -/
def globMatchFuel : Nat → Str → Str → Bool
  | 0, _, _ => false
  | fuel + 1, pat, s =>
    match pat, s with
    | [], [] => true
    | [], _ :: _ => false
    | '*' :: ps, [] => globMatchFuel fuel ps []
    | '*' :: ps, c :: s2 =>
      globMatchFuel fuel ps (c :: s2) || globMatchFuel fuel ('*' :: ps) s2
    | '?' :: _, [] => false
    | '?' :: ps, _ :: s2 => globMatchFuel fuel ps s2
    | _ :: _, [] => false
    | p :: ps, c :: s2 => (p == c) && globMatchFuel fuel ps s2

/-- Modelled from the spec: glob-style include-pattern match on a file name. -/
def globMatch (pat s : Str) : Bool :=
  globMatchFuel (pat.length + s.length + 1) pat s

/-- The final path component: the file's name. -/
def fileName (f : FSFile) : Str := f.relpath.getLast?.getD []

/-- The path component immediately enclosing the file (empty for a file
directly in the root). -/
def fileParent (f : FSFile) : Str := f.relpath.dropLast.getLast?.getD []

/-- Depth of a file: the number of intermediate subdirectories between the
root and the file; files directly in the root have depth zero. -/
def depthOf (p : RelPath) : Nat := p.length - 1

/-- The normalized root-relative path string, components joined by a slash. -/
def pathString : RelPath → Str
  | [] => []
  | c :: rest =>
    match rest with
    | [] => c
    | _ :: _ => c ++ '/' :: pathString rest

/-- Modelled from the spec: file_id is a stable digest of the normalized
root-relative path string, a pure function of location. The digest is
modelled as the path string itself, an injective stand-in. -/
def fileId (p : RelPath) : Str := pathString p

/-- Modelled from the spec: the content fingerprint, a deterministic
function of the file's bytes only. -/
def hashContent (content : List Nat) : Nat :=
  content.foldl (fun h b => h * 31 + b + 1) 7

/-- A FileRecord surfaced to queries (spec section 3). -/
structure Document where
  name : Str
  parent : Str
  size : Nat
  hash : Nat
  file_id : Str
  last_updated : Nat
  metadata : Option Metadata
deriving DecidableEq, Repr

/-- Modelled from the spec: build the FileRecord of one crawled file: size
from byte length, hash from content, file_id from the root-relative path,
last_updated from the modification time, no metadata yet. -/
def mkDocument (f : FSFile) : Document :=
  { name := fileName f
    parent := fileParent f
    size := f.content.length
    hash := hashContent f.content
    file_id := fileId f.relpath
    last_updated := f.mtime
    metadata := none }

/-- Modelled from the spec: the crawler's per-file filter: the depth bound
(unbounded when unset), a logical OR over the include patterns, and the
unconditional exclusion of the sidecar filename. -/
def included (cfg : FileStoreConfig) (f : FSFile) : Bool :=
  (match cfg.max_depth with
   | none => true
   | some d => decide (depthOf f.relpath ≤ d)) &&
  cfg.track_files.any (fun pat => globMatch pat (fileName f)) &&
  decide (fileName f ≠ cfg.json_name)

/-- Modelled from the spec: crawl the tree, producing FileRecords of the
included files. -/
def crawl (fs : FileSystem) (cfg : FileStoreConfig) : List Document :=
  (fs.files.filter (included cfg)).map mkDocument

/-- First-match lookup of a file_id in sidecar data. -/
def lookupMeta : List (Str × Metadata) → Str → Option Metadata
  | [], _ => none
  | p :: rest, k => if p.1 = k then some p.2 else lookupMeta rest k

/-- Modelled from the spec: merge freshly crawled records with the persisted
sidecar metadata by file_id; a record with no sidecar entry keeps no
metadata. -/
def reconcile (docs : List Document) (sidecar : List (Str × Metadata)) : List Document :=
  docs.map fun d => { d with metadata := lookupMeta sidecar d.file_id }

/-- A connected FileStore instance: its configuration and its in-memory
document set. -/
structure FileStore where
  cfg : FileStoreConfig
  docs : List Document
deriving DecidableEq, Repr

/-- Modelled from the spec: connect crawls the tree, loads the sidecar and
reconciles the two into the queryable document set. -/
def connect (fs : FileSystem) (cfg : FileStoreConfig) : FileStore :=
  ⟨cfg, reconcile (crawl fs cfg) fs.sidecarData⟩

/-- Query the in-memory document set for a given file_id. -/
def FileStore.queryId (store : FileStore) (k : Str) : Option Document :=
  store.docs.find? fun d => d.file_id = k

/-- Modelled from the spec: update sets the metadata field of the in-memory
document keyed by the given file_id, leaving crawl-derived fields alone. -/
def FileStore.update (store : FileStore) (k : Str) (m : Metadata) : FileStore :=
  ⟨store.cfg,
    store.docs.map fun d =>
      if d.file_id = k then { d with metadata := some m } else d⟩

/-- The sidecar records a flush would persist: one entry per document that
carries metadata. -/
def FileStore.sidecarEntries (store : FileStore) : List (Str × Metadata) :=
  store.docs.filterMap fun d => d.metadata.map fun m => (d.file_id, m)

/-- Modelled from the spec: write the current metadata mapping back to the
sidecar file, replacing its prior content; a read-only store refuses with a
permission-style error and does not touch disk. -/
def FileStore.writeSidecar (store : FileStore) (fs : FileSystem) :
    Except Str FileSystem :=
  if store.cfg.read_only then
    Except.error (str "Permission denied: store is read only")
  else
    Except.ok { fs with sidecarData := store.sidecarEntries }

/-- Modelled from the spec: close flushes pending metadata unless the store
is read-only, in which case the durable state is left untouched. -/
def FileStore.close (store : FileStore) (fs : FileSystem) : FileSystem :=
  match store.writeSidecar fs with
  | Except.ok fs2 => fs2
  | Except.error _ => fs

/-- The last_updated timestamp this store's snapshot records for a file_id. -/
def FileStore.lastUpdatedOf (store : FileStore) (k : Str) : Option Nat :=
  (store.docs.find? fun d => d.file_id = k).map Document.last_updated

/-- Modelled from the spec: the staleness comparison: the file_ids present
in both snapshots whose last_updated in `other` is strictly greater than in
this store. -/
def FileStore.newerIn (store other : FileStore) : List Str :=
  store.docs.filterMap fun d =>
    match other.lastUpdatedOf d.file_id with
    | none => none
    | some t => if d.last_updated < t then some d.file_id else none

/-- The test fixture tree of the FileStore test suite: one regular file
directly in the root, four files one level deep (two of them named
input.in), one file two levels deep (a .json file), and the sidecar file
FileStore.json adjacent to the root. -/
def testTree : List FSFile :=
  [⟨[str "file_at_root.txt"], [0], 10⟩,
   ⟨[str "calculation1", str "input.in"], [1], 11⟩,
   ⟨[str "calculation1", str "output.log"], [2], 12⟩,
   ⟨[str "calculation2", str "input.in"], [3], 13⟩,
   ⟨[str "calculation2", str "output.log"], [4], 14⟩,
   ⟨[str "nested", str "deep", str "file_2_levels_deep.json"], [5], 15⟩,
   ⟨[str "FileStore.json"], [6], 16⟩]

/-- The test filesystem: the fixture tree with an empty sidecar. -/
def testFS : FileSystem := ⟨testTree, []⟩

/-- Configuration with a given depth bound and the default match-all
pattern. -/
def cfgDepth (d : Option Nat) : FileStoreConfig :=
  ⟨d, [str "*"], str "FileStore.json", false⟩

/-- Configuration with the two include patterns of the pattern test. -/
def cfgTrack : FileStoreConfig :=
  ⟨none, [str "*.in", str "*.json"], str "FileStore.json", false⟩

/-- A read-only configuration over the fixture tree. -/
def cfgReadOnly : FileStoreConfig :=
  ⟨none, [str "*"], str "FileStore.json", true⟩

/-- The fixture tree after a local edit: calculation1/input.in has new
content and a later modification time; every other file is unchanged. -/
def testTree2 : List FSFile :=
  [⟨[str "file_at_root.txt"], [0], 10⟩,
   ⟨[str "calculation1", str "input.in"], [9, 9], 99⟩,
   ⟨[str "calculation1", str "output.log"], [2], 12⟩,
   ⟨[str "calculation2", str "input.in"], [3], 13⟩,
   ⟨[str "calculation2", str "output.log"], [4], 14⟩,
   ⟨[str "nested", str "deep", str "file_2_levels_deep.json"], [5], 15⟩,
   ⟨[str "FileStore.json"], [6], 16⟩]

/-- The edited filesystem snapshot. -/
def testFS2 : FileSystem := ⟨testTree2, []⟩

/-- A path is well formed when it is non-empty and each component is a
non-empty string free of the slash separator. -/
def ValidPath (p : RelPath) : Prop :=
  p ≠ [] ∧ ∀ c ∈ p, c ≠ [] ∧ '/' ∉ c

theorem optOr_some (x : Int) (b : Option Int) : optOr (some x) b = some x := rfl

theorem optOr_none_left (b : Option Int) : optOr none b = b := rfl

theorem optOr_none_right (a : Option Int) : optOr a none = a := by
  cases a <;> rfl

theorem optOr_assoc (a b c : Option Int) :
    optOr (optOr a b) c = optOr a (optOr b c) := by
  cases a <;> rfl

theorem map_fst_overwrite (d : List (Str × Int)) (k : Str) (v : Int) :
    (d.map (fun p => if p.1 = k then (k, v) else p)).map Prod.fst = d.map Prod.fst := by
  induction d with
  | nil => rfl
  | cons a rest ih =>
    simp only [List.map_cons]
    by_cases h : a.1 = k
    · simp [h, ih]
    · simp [h, ih]

theorem dictUpdate_keys (d : List (Str × Int)) (k : Str) (v : Int) :
    (dictUpdate d k v).map Prod.fst =
      if k ∈ d.map Prod.fst then d.map Prod.fst else d.map Prod.fst ++ [k] := by
  unfold dictUpdate
  by_cases h : k ∈ d.map Prod.fst
  · rw [if_pos h, if_pos h, map_fst_overwrite]
  · rw [if_neg h, if_neg h, List.map_append]
    rfl

theorem lookupDict_append_single (d : List (Str × Int)) (k f : Str) (v : Int) :
    lookupDict (d ++ [(k, v)]) f = optOr (lookupDict d f) (if f = k then some v else none) := by
  induction d with
  | nil =>
    simp only [List.nil_append, lookupDict, optOr_none_left]
  | cons a rest ih =>
    simp only [List.cons_append, lookupDict]
    by_cases h : f = a.1
    · simp [h, optOr_some]
    · simp [h, ih]

theorem lookupDict_overwrite (d : List (Str × Int)) (k f : Str) (v : Int) :
    lookupDict (d.map (fun p => if p.1 = k then (k, v) else p)) f =
      if f = k then (if k ∈ d.map Prod.fst then some v else none)
      else lookupDict d f := by
  induction d with
  | nil => simp [lookupDict]
  | cons a rest ih =>
    simp only [List.map_cons, lookupDict, List.mem_cons]
    by_cases hak : a.1 = k
    · by_cases hfk : f = k
      · simp [hak, hfk]
      · simp [hak, hfk, ih]
    · by_cases hfa : f = a.1
      · have hfk : ¬f = k := by rw [hfa]; exact hak
        simp [hak, hfa, hfk]
      · by_cases hfk : f = k
        · subst hfk
          have hor : (f = a.1 ∨ f ∈ rest.map Prod.fst) ↔ f ∈ rest.map Prod.fst :=
            or_iff_right hfa
          simp [ih, hfa, hak]
          by_cases hm : f ∈ rest.map Prod.fst
          · rw [if_pos hm, if_pos (hor.mpr hm)]
          · rw [if_neg hm, if_neg (fun hc => hm (hor.mp hc))]
        · simp [hak, hfa, hfk, ih]

theorem lookupDict_eq_none_of_not_mem (d : List (Str × Int)) (f : Str)
    (h : f ∉ d.map Prod.fst) : lookupDict d f = none := by
  induction d with
  | nil => rfl
  | cons a rest ih =>
    simp only [List.map_cons, List.mem_cons, not_or] at h
    simp only [lookupDict, if_neg h.1]
    exact ih h.2

theorem lookupDict_dictUpdate (d : List (Str × Int)) (k : Str) (v : Int) (f : Str) :
    lookupDict (dictUpdate d k v) f = if f = k then some v else lookupDict d f := by
  unfold dictUpdate
  by_cases h : k ∈ d.map Prod.fst
  · rw [if_pos h, lookupDict_overwrite]
    by_cases hfk : f = k
    · simp [hfk, h]
    · simp [hfk]
  · rw [if_neg h, lookupDict_append_single]
    by_cases hfk : f = k
    · subst hfk
      rw [lookupDict_eq_none_of_not_mem d f h]
      simp [optOr_none_left]
    · simp [hfk, optOr_none_right]

theorem applySegment_eq (acc : List (Str × Int)) (seg : Str) (h : seg ≠ []) :
    applySegment acc seg = some (dictUpdate acc (stripPair seg).1 (stripPair seg).2) := by
  cases seg with
  | nil => exact absurd rfl h
  | cons c rest =>
    simp only [applySegment, stripPair]
    by_cases hc : c = '-' <;> simp [hc]

theorem dictUpdate_fresh (d : List (Str × Int)) (k : Str) (v : Int)
    (h : k ∉ d.map Prod.fst) : dictUpdate d k v = d ++ [(k, v)] := by
  unfold dictUpdate
  rw [if_neg h]

theorem foldSegments_fresh (segs : List Str) (acc : List (Str × Int))
    (hne : ∀ seg ∈ segs, seg ≠ [])
    (hnodup : (segs.map stripName).Nodup)
    (hfresh : ∀ seg ∈ segs, stripName seg ∉ acc.map Prod.fst) :
    foldSegments acc segs = some (acc ++ segs.map stripPair) := by
  induction segs generalizing acc with
  | nil => simp [foldSegments]
  | cons seg rest ih =>
    have hseg : seg ≠ [] := hne seg (by simp)
    have hhead : stripName seg ∉ rest.map stripName := by
      simp only [List.map_cons, List.nodup_cons] at hnodup
      exact hnodup.1
    have hnodup' : (rest.map stripName).Nodup := by
      simp only [List.map_cons, List.nodup_cons] at hnodup
      exact hnodup.2
    have hstep : applySegment acc seg = some (acc ++ [stripPair seg]) := by
      rw [applySegment_eq _ _ hseg, dictUpdate_fresh _ _ _
        (show (stripPair seg).1 ∉ acc.map Prod.fst from hfresh seg (by simp))]
    have hfresh' : ∀ s ∈ rest, stripName s ∉ (acc ++ [stripPair seg]).map Prod.fst := by
      intro s hs
      rw [List.map_append, List.mem_append]
      rintro (h1 | h2)
      · exact hfresh s (List.mem_cons_of_mem _ hs) h1
      · have heq : stripName s = stripName seg := by
          simpa [stripName] using h2
        exact hhead (heq ▸ List.mem_map_of_mem stripName hs)
    simp only [foldSegments, hstep]
    rw [ih _ (fun s hs => hne s (List.mem_cons_of_mem _ hs)) hnodup' hfresh']
    simp [List.append_assoc]

theorem foldSegments_dict (segs : List Str) (acc : List (Str × Int))
    (hne : ∀ seg ∈ segs, seg ≠ []) :
    ∃ d, foldSegments acc segs = some d ∧
      d.map Prod.fst = mergeKeys (acc.map Prod.fst) (segs.map stripName) ∧
      ∀ f, lookupDict d f =
        optOr (lastDirection (segs.map stripPair) f) (lookupDict acc f) := by
  induction segs generalizing acc with
  | nil => exact ⟨acc, rfl, rfl, fun f => rfl⟩
  | cons seg rest ih =>
    have hseg : seg ≠ [] := hne seg (by simp)
    obtain ⟨d, hd, hkeys, hlook⟩ :=
      ih (dictUpdate acc (stripPair seg).1 (stripPair seg).2)
        (fun s hs => hne s (List.mem_cons_of_mem _ hs))
    refine ⟨d, ?_, ?_, ?_⟩
    · simp only [foldSegments, applySegment_eq _ _ hseg]
      exact hd
    · rw [hkeys, dictUpdate_keys]
      simp only [List.map_cons, mergeKeys, stripName]
      split
      · rfl
      · rfl
    · intro f
      rw [hlook f, lookupDict_dictUpdate]
      simp only [List.map_cons, lastDirection]
      rw [optOr_assoc]
      by_cases hf : f = (stripPair seg).1
      · simp [hf, optOr_some]
      · simp [hf, optOr_none_left]

theorem foldSegments_none_of_empty_seg (segs : List Str) (acc : List (Str × Int))
    (h : [] ∈ segs) : foldSegments acc segs = none := by
  induction segs generalizing acc with
  | nil => cases h
  | cons seg rest ih =>
    by_cases hseg : seg = []
    · subst hseg
      rfl
    · have hmem : [] ∈ rest := by
        rcases List.mem_cons.mp h with h1 | h1
        · exact absurd h1.symm hseg
        · exact h1
      simp only [foldSegments, applySegment_eq _ _ hseg]
      exact ih _ hmem

/-- Claim C1, counterexample: on the input "a,-a", in which the field "a"
occurs twice (ascending first, descending second), `SortQuery.query` returns
the direction from the LAST occurrence, not the first: the resulting sort
mapping is a maps-to minus-one, refuting first-occurrence-wins. -/
theorem sortQuery_first_occurrence_counterexample :
    SortQuery.query (some (str "a,-a")) = some ⟨[(str "a", -1)]⟩ ∧
    SortQuery.query (some (str "a,-a")) ≠ some ⟨[(str "a", 1)]⟩ := by
  decide

/-- Claim C1, amended: for every sort_fields string with no empty segment,
the sort mapping returned by `SortQuery.query` has each field at the position
of its FIRST occurrence in the comma-delimited string, but the direction
retained for a field is the one of its LAST occurrence (Python dict update
overwrites the value of an existing key in place). -/
theorem sortQuery_repeated_field_composition (s : Str) (hne : s ≠ [])
    (hseg : ∀ seg ∈ splitOnComma s, seg ≠ []) :
    ∃ d, SortQuery.query (some s) = some ⟨d⟩ ∧
      d.map Prod.fst = mergeKeys [] ((splitOnComma s).map stripName) ∧
      ∀ f, lookupDict d f = lastDirection ((splitOnComma s).map stripPair) f := by
  obtain ⟨d, hd, hkeys, hlook⟩ := foldSegments_dict (splitOnComma s) [] hseg
  refine ⟨d, ?_, by simpa using hkeys, fun f => ?_⟩
  · simp only [SortQuery.query, if_neg hne, hd, Option.map_some']
  · have h := hlook f
    simpa [lookupDict, optOr_none_right] using h

/-- Claim C1, witness for the amended theorem at the input "a,-a". -/
theorem sortQuery_repeated_field_composition_witness :
    ∃ d, SortQuery.query (some (str "a,-a")) = some ⟨d⟩ ∧
      d.map Prod.fst = mergeKeys [] ((splitOnComma (str "a,-a")).map stripName) ∧
      ∀ f, lookupDict d f = lastDirection ((splitOnComma (str "a,-a")).map stripPair) f :=
  sortQuery_repeated_field_composition (str "a,-a") (by decide) (by decide)

/-- Claim C2: on a non-empty sort_fields string whose comma-delimited segments
are non-empty and carry pairwise-distinct field names, `SortQuery.query`
returns exactly the fields in order of appearance, with direction minus one
for a segment with a leading dash (the field being the segment without the
dash) and plus one otherwise. -/
theorem sortQuery_distinct_fields (s : Str) (hne : s ≠ [])
    (hseg : ∀ seg ∈ splitOnComma s, seg ≠ [])
    (hnodup : ((splitOnComma s).map stripName).Nodup) :
    SortQuery.query (some s) = some ⟨(splitOnComma s).map stripPair⟩ := by
  simp only [SortQuery.query, if_neg hne]
  rw [foldSegments_fresh _ _ hseg hnodup (by simp)]
  simp

/-- Claim C2, witness at the input "a,-b". -/
theorem sortQuery_distinct_fields_witness :
    SortQuery.query (some (str "a,-b")) = some ⟨[(str "a", 1), (str "b", -1)]⟩ :=
  (sortQuery_distinct_fields (str "a,-b") (by decide) (by decide) (by decide)).trans
    (by decide)

/-- Claim C9: a non-empty sort_fields string containing an empty
comma-delimited segment (consecutive, leading or trailing commas) makes
`SortQuery.query` fail on the out-of-bounds index access on the empty
segment, modelled as a `none` result. -/
theorem sortQuery_empty_segment_fails (s : Str) (hne : s ≠ [])
    (h : [] ∈ splitOnComma s) :
    SortQuery.query (some s) = none := by
  simp only [SortQuery.query, if_neg hne,
    foldSegments_none_of_empty_seg _ _ h, Option.map_none']

/-- Claim C9, witness at the inputs "a,,b" and "a,". -/
theorem sortQuery_empty_segment_fails_witness :
    SortQuery.query (some (str "a,,b")) = none ∧
    SortQuery.query (some (str "a,")) = none :=
  ⟨sortQuery_empty_segment_fails (str "a,,b") (by decide) (by decide),
   sortQuery_empty_segment_fails (str "a,") (by decide) (by decide)⟩

/-- Claim C10: with sort_fields absent (None) or equal to the empty string,
`SortQuery.query` succeeds and returns the dict with the single key "sort"
holding an empty sort specification. -/
theorem sortQuery_falsy_empty_sort :
    SortQuery.query none = some ⟨[]⟩ ∧
    SortQuery.query (some (str "")) = some ⟨[]⟩ := by
  decide

theorem sep_split_inj : ∀ (c d P Q : Str), '/' ∉ c → '/' ∉ d →
    c ++ '/' :: P = d ++ '/' :: Q → c = d ∧ P = Q := by
  intro c
  induction c with
  | nil =>
    intro d P Q _ hd h
    cases d with
    | nil => simpa using h
    | cons e d2 =>
      simp only [List.nil_append, List.cons_append] at h
      obtain ⟨he, _⟩ := List.cons.inj h
      exact absurd (he ▸ List.mem_cons_self e d2) hd
  | cons e c2 ih =>
    intro d P Q hc hd h
    cases d with
    | nil =>
      simp only [List.cons_append, List.nil_append] at h
      obtain ⟨he, _⟩ := List.cons.inj h
      exact absurd (he ▸ List.mem_cons_self e c2) hc
    | cons e2 d2 =>
      simp only [List.cons_append] at h
      obtain ⟨he, ht⟩ := List.cons.inj h
      have hc2 : '/' ∉ c2 := fun hx => hc (List.mem_cons_of_mem _ hx)
      have hd2 : '/' ∉ d2 := fun hx => hd (List.mem_cons_of_mem _ hx)
      obtain ⟨hcd, hPQ⟩ := ih d2 P Q hc2 hd2 ht
      exact ⟨by rw [he, hcd], hPQ⟩

theorem pathString_inj : ∀ (p q : RelPath), ValidPath p → ValidPath q →
    pathString p = pathString q → p = q := by
  intro p
  induction p with
  | nil =>
    intro q hp _ _
    exact absurd rfl hp.1
  | cons c p2 ih =>
    intro q hp hq h
    cases q with
    | nil => exact absurd rfl hq.1
    | cons d q2 =>
      cases p2 with
      | nil =>
        cases q2 with
        | nil =>
          simp only [pathString] at h
          rw [h]
        | cons d2 q3 =>
          simp only [pathString] at h
          have hmem : '/' ∈ c := by
            rw [h]
            exact List.mem_append_right _ (List.mem_cons_self _ _)
          exact absurd hmem (hp.2 c (List.mem_cons_self _ _)).2
      | cons c2 p3 =>
        cases q2 with
        | nil =>
          simp only [pathString] at h
          have hmem : '/' ∈ d := by
            rw [← h]
            exact List.mem_append_right _ (List.mem_cons_self _ _)
          exact absurd hmem (hq.2 d (List.mem_cons_self _ _)).2
        | cons d2 q3 =>
          simp only [pathString] at h
          have hcq : '/' ∉ c := (hp.2 c (List.mem_cons_self _ _)).2
          have hdq : '/' ∉ d := (hq.2 d (List.mem_cons_self _ _)).2
          obtain ⟨hcd, ht⟩ := sep_split_inj c d _ _ hcq hdq h
          have hp2 : ValidPath (c2 :: p3) :=
            ⟨List.cons_ne_nil _ _, fun x hx => hp.2 x (List.mem_cons_of_mem _ hx)⟩
          have hq2 : ValidPath (d2 :: q3) :=
            ⟨List.cons_ne_nil _ _, fun x hx => hq.2 x (List.mem_cons_of_mem _ hx)⟩
          rw [hcd, ih (d2 :: q3) hp2 hq2 ht]

/-- Claim C3: file_id is a pure function of the root-relative path: two scans
of the same path yield the same file_id whatever the content, size or
modification time, and two distinct well-formed root-relative paths never
yield the same file_id. -/
theorem fileId_location_identity (f g : FSFile) (p q : RelPath)
    (hf : f.relpath = p) (hg : g.relpath = p)
    (hp : ValidPath p) (hq : ValidPath q) (hpq : p ≠ q) :
    (mkDocument f).file_id = (mkDocument g).file_id ∧ fileId p ≠ fileId q := by
  constructor
  · simp [mkDocument, hf, hg]
  · intro hcontra
    exact hpq (pathString_inj p q hp hq hcontra)

/-- Claim C3, witness: same path with different content, size and mtime gives
the same file_id; the paths a/b.txt and c.txt give different file_ids. -/
theorem fileId_location_identity_witness :
    (mkDocument ⟨[str "a", str "b.txt"], [1], 5⟩).file_id =
      (mkDocument ⟨[str "a", str "b.txt"], [2, 3], 9⟩).file_id ∧
    fileId [str "a", str "b.txt"] ≠ fileId [str "c.txt"] :=
  fileId_location_identity _ _ _ _ rfl rfl
    (by exact ⟨by decide, by decide⟩) (by exact ⟨by decide, by decide⟩) (by decide)

/-- Claim C5: on the fixture tree (one regular file directly in the root,
four files one subdirectory deep, one file two subdirectories deep, plus the
excluded sidecar), a depth bound of 0 yields 1 document, a depth bound of 1
yields 5, and an unset depth bound yields all 6. -/
theorem fileStore_max_depth_counts :
    (connect testFS (cfgDepth (some 0))).docs.length = 1 ∧
    (connect testFS (cfgDepth (some 1))).docs.length = 5 ∧
    (connect testFS (cfgDepth none)).docs.length = 6 := by
  decide

/-- Claim C6: with no depth bound, a file is included exactly when its name
matches at least one include pattern (logical OR) and is not the sidecar
filename; in particular the patterns *.in and *.json over the fixture tree
(two .in files, one nested .json file, and the sidecar's own .json file)
yield exactly 3 documents. -/
theorem fileStore_pattern_or (cfg : FileStoreConfig) (f : FSFile)
    (hdepth : cfg.max_depth = none) :
    (included cfg f = true ↔
      cfg.track_files.any (fun pat => globMatch pat (fileName f)) = true ∧
        fileName f ≠ cfg.json_name) ∧
    (connect testFS cfgTrack).docs.length = 3 := by
  constructor
  · simp [included, hdepth]
  · decide

/-- Claim C6, witness at the file calculation1/input.in under the two-pattern
configuration. -/
theorem fileStore_pattern_or_witness :
    (included cfgTrack ⟨[str "calculation1", str "input.in"], [1], 11⟩ = true ↔
      cfgTrack.track_files.any
          (fun pat => globMatch pat
            (fileName ⟨[str "calculation1", str "input.in"], [1], 11⟩)) = true ∧
        fileName ⟨[str "calculation1", str "input.in"], [1], 11⟩ ≠ cfgTrack.json_name) ∧
    (connect testFS cfgTrack).docs.length = 3 :=
  fileStore_pattern_or cfgTrack ⟨[str "calculation1", str "input.in"], [1], 11⟩ rfl

/-- Claim C8: against a read-only store every sidecar write attempt is
refused with a permission-style error, never succeeds, and closing leaves
the durable state untouched; loading (connect) works the same as it would
without the read-only flag. -/
theorem fileStore_read_only_write (store : FileStore) (fs : FileSystem)
    (h : store.cfg.read_only = true) :
    store.writeSidecar fs =
      Except.error (str "Permission denied: store is read only") ∧
    (∀ fs2, store.writeSidecar fs ≠ Except.ok fs2) ∧
    store.close fs = fs ∧
    (connect fs store.cfg).docs =
      (connect fs ⟨store.cfg.max_depth, store.cfg.track_files,
        store.cfg.json_name, false⟩).docs := by
  have hw : store.writeSidecar fs =
      Except.error (str "Permission denied: store is read only") := by
    unfold FileStore.writeSidecar
    rw [if_pos h]
  refine ⟨hw, ?_, ?_, rfl⟩
  · intro fs2 hc
    rw [hw] at hc
    cases hc
  · unfold FileStore.close
    rw [hw]

/-- Claim C8, witness: a read-only store over the fixture tree. -/
theorem fileStore_read_only_write_witness :
    (connect testFS cfgReadOnly).writeSidecar testFS =
      Except.error (str "Permission denied: store is read only") ∧
    (∀ fs2, (connect testFS cfgReadOnly).writeSidecar testFS ≠ Except.ok fs2) ∧
    (connect testFS cfgReadOnly).close testFS = testFS ∧
    (connect testFS (connect testFS cfgReadOnly).cfg).docs =
      (connect testFS ⟨(connect testFS cfgReadOnly).cfg.max_depth,
        (connect testFS cfgReadOnly).cfg.track_files,
        (connect testFS cfgReadOnly).cfg.json_name, false⟩).docs :=
  fileStore_read_only_write (connect testFS cfgReadOnly) testFS rfl

theorem find?_file_id_of_mem_nodup (docs : List Document)
    (hnodup : (docs.map Document.file_id).Nodup) (d : Document) (hd : d ∈ docs) :
    docs.find? (fun x => x.file_id = d.file_id) = some d := by
  induction docs with
  | nil => cases hd
  | cons a rest ih =>
    simp only [List.map_cons, List.nodup_cons] at hnodup
    rcases List.mem_cons.mp hd with rfl | hd2
    · simp [List.find?_cons]
    · have hne : ¬a.file_id = d.file_id := by
        intro he
        exact hnodup.1 (he ▸ List.mem_map_of_mem Document.file_id hd2)
      simp only [List.find?_cons, hne, decide_false_eq_false, cond_false]
      exact ih hnodup.2 hd2

/-- Claim C4: a file_id is reported by `newer_in` exactly when it is present
in both snapshots and the other snapshot's last_updated is strictly greater;
ties and one-sided ids are never reported. -/
theorem fileStore_newer_in_spec (a b : FileStore)
    (hnodup : (a.docs.map Document.file_id).Nodup) (k : Str) :
    k ∈ a.newerIn b ↔
      ∃ ta tb, a.lastUpdatedOf k = some ta ∧ b.lastUpdatedOf k = some tb ∧ ta < tb := by
  constructor
  · intro h
    obtain ⟨d, hd, hg⟩ := List.mem_filterMap.mp h
    split at hg
    · exact Option.noConfusion hg
    · rename_i t hbt
      split at hg
      · rename_i hlt
        have hdk : d.file_id = k := Option.some.inj hg
        subst hdk
        refine ⟨d.last_updated, t, ?_, hbt, hlt⟩
        unfold FileStore.lastUpdatedOf
        rw [find?_file_id_of_mem_nodup a.docs hnodup d hd]
        rfl
      · exact Option.noConfusion hg
  · rintro ⟨ta, tb, ha, hb, hlt⟩
    unfold FileStore.lastUpdatedOf at ha
    cases hfa : a.docs.find? (fun d => d.file_id = k) with
    | none => rw [hfa] at ha; cases ha
    | some d =>
      rw [hfa] at ha
      have hdk : d.file_id = k := by
        have hp := List.find?_some hfa
        simpa using hp
      have hmem : d ∈ a.docs := List.mem_of_find?_eq_some hfa
      have hta : d.last_updated = ta := Option.some.inj ha
      apply List.mem_filterMap.mpr
      refine ⟨d, hmem, ?_⟩
      rw [hdk, hb]
      show (if d.last_updated < tb then some k else none) = some k
      rw [if_pos (show d.last_updated < tb by rw [hta]; exact hlt)]

/-- Claim C4, witness: between the fixture snapshot and its locally edited
snapshot, the edited file calculation1/input.in is reported as newer. -/
theorem fileStore_newer_in_spec_witness :
    str "calculation1/input.in" ∈
      (connect testFS (cfgDepth none)).newerIn (connect testFS2 (cfgDepth none)) :=
  (fileStore_newer_in_spec (connect testFS (cfgDepth none))
      (connect testFS2 (cfgDepth none)) (by decide) (str "calculation1/input.in")).mpr
    ⟨11, 99, by decide, by decide, by decide⟩

theorem find?_file_id_of_mem_map (docs : List Document) (k : Str)
    (h : k ∈ docs.map Document.file_id) :
    ∃ d, docs.find? (fun x => x.file_id = k) = some d ∧ d.file_id = k := by
  induction docs with
  | nil => cases h
  | cons a rest ih =>
    by_cases hak : a.file_id = k
    · exact ⟨a, by simp [List.find?_cons, hak], hak⟩
    · have h2 : k ∈ rest.map Document.file_id := by
        simp only [List.map_cons, List.mem_cons] at h
        rcases h with h1 | h1
        · exact absurd h1.symm hak
        · exact h1
      obtain ⟨d, hd, hk⟩ := ih h2
      refine ⟨d, ?_, hk⟩
      simp only [List.find?_cons, hak, decide_false_eq_false, cond_false]
      exact hd

theorem reconcile_find? (docs : List Document) (sc : List (Str × Metadata)) (k : Str) :
    (reconcile docs sc).find? (fun d => d.file_id = k) =
      (docs.find? (fun d => d.file_id = k)).map
        (fun d => { d with metadata := lookupMeta sc d.file_id }) := by
  induction docs with
  | nil => rfl
  | cons a rest ih =>
    simp only [reconcile, List.map_cons, List.find?_cons]
    by_cases h : a.file_id = k
    · simp [h]
    · simp only [h, decide_false_eq_false, cond_false]
      exact ih

theorem reconcile_file_id_map (docs : List Document) (sc : List (Str × Metadata)) :
    (reconcile docs sc).map Document.file_id = docs.map Document.file_id := by
  induction docs with
  | nil => rfl
  | cons a rest ih =>
    simp only [reconcile, List.map_cons] at *
    rw [ih]

theorem update_file_id_map (docs : List Document) (k : Str) (m : Metadata) :
    (docs.map fun d =>
        if d.file_id = k then { d with metadata := some m } else d).map
      Document.file_id = docs.map Document.file_id := by
  induction docs with
  | nil => rfl
  | cons a rest ih =>
    simp only [List.map_cons, ih]
    by_cases h : a.file_id = k <;> simp [h]

theorem lookupMeta_sidecarEntries (docs : List Document) (k : Str) (m : Metadata)
    (hall : ∀ d ∈ docs, d.file_id = k → d.metadata = some m)
    (hex : ∃ d ∈ docs, d.file_id = k) :
    lookupMeta (docs.filterMap fun d => d.metadata.map fun mm => (d.file_id, mm)) k =
      some m := by
  induction docs with
  | nil =>
    obtain ⟨d, hd, _⟩ := hex
    cases hd
  | cons a rest ih =>
    have htail : (∃ d ∈ rest, d.file_id = k) → _ :=
      ih (fun d hd hk => hall d (List.mem_cons_of_mem _ hd) hk)
    by_cases hak : a.file_id = k
    · have hm := hall a (List.mem_cons_self _ _) hak
      simp only [List.filterMap_cons, hm, Option.map_some', lookupMeta, if_pos hak]
    · cases hma : a.metadata with
      | none =>
        simp only [List.filterMap_cons, hma, Option.map_none']
        apply htail
        obtain ⟨d, hd, hk⟩ := hex
        rcases List.mem_cons.mp hd with rfl | hd2
        · exact absurd hk hak
        · exact ⟨d, hd2, hk⟩
      | some ma =>
        simp only [List.filterMap_cons, hma, Option.map_some', lookupMeta, if_neg hak]
        apply htail
        obtain ⟨d, hd, hk⟩ := hex
        rcases List.mem_cons.mp hd with rfl | hd2
        · exact absurd hk hak
        · exact ⟨d, hd2, hk⟩

/-- Claim C7: for a mutable store, updating the metadata of a crawled
file_id, closing the store, and connecting a fresh instance against the same
root yields, on query for that file_id, a document whose metadata equals the
written mapping. -/
theorem fileStore_metadata_roundtrip (fs : FileSystem) (cfg : FileStoreConfig)
    (k : Str) (m : Metadata)
    (hro : cfg.read_only = false)
    (hk : k ∈ (crawl fs cfg).map Document.file_id) :
    ∃ d, (connect (((connect fs cfg).update k m).close fs) cfg).queryId k = some d ∧
      d.metadata = some m := by
  have hclose : ((connect fs cfg).update k m).close fs =
      { fs with sidecarData := ((connect fs cfg).update k m).sidecarEntries } := by
    unfold FileStore.close FileStore.writeSidecar
    have : ((connect fs cfg).update k m).cfg.read_only = false := hro
    rw [this]
    rfl
  rw [hclose]
  obtain ⟨d0, hfind, hd0k⟩ := find?_file_id_of_mem_map (crawl fs cfg) k hk
  have hquery : (connect { fs with
      sidecarData := ((connect fs cfg).update k m).sidecarEntries } cfg).queryId k =
      some { d0 with
        metadata := lookupMeta ((connect fs cfg).update k m).sidecarEntries d0.file_id } := by
    show (reconcile (crawl fs cfg)
        ((connect fs cfg).update k m).sidecarEntries).find?
        (fun d => d.file_id = k) = _
    rw [reconcile_find?, hfind]
    rfl
  have hmeta : lookupMeta ((connect fs cfg).update k m).sidecarEntries k = some m := by
    unfold FileStore.sidecarEntries
    apply lookupMeta_sidecarEntries
    · intro d hd hdk
      unfold FileStore.update connect at hd
      simp only [List.mem_map] at hd
      obtain ⟨d2, _, hd2⟩ := hd
      by_cases h2 : d2.file_id = k
      · rw [← hd2, if_pos h2]
      · rw [← hd2, if_neg h2] at hdk ⊢
        exact absurd hdk h2
    · have hids : (((connect fs cfg).update k m).docs.map Document.file_id) =
          (crawl fs cfg).map Document.file_id := by
        unfold FileStore.update connect
        simp only
        rw [update_file_id_map, reconcile_file_id_map]
      have hk2 : k ∈ ((connect fs cfg).update k m).docs.map Document.file_id := by
        rw [hids]
        exact hk
      obtain ⟨d, hd, hdk⟩ := List.mem_map.mp hk2
      exact ⟨d, hd, hdk⟩
  refine ⟨_, hquery, ?_⟩
  simp only [hd0k, hmeta]

/-- Claim C7, witness: writing an experiment-date metadata mapping to
calculation1/input.in on the fixture tree survives close and reconnect. -/
theorem fileStore_metadata_roundtrip_witness :
    ∃ d, (connect (((connect testFS (cfgDepth none)).update
        (str "calculation1/input.in")
        [(str "experiment date", str "2022-01-18")]).close testFS)
        (cfgDepth none)).queryId (str "calculation1/input.in") = some d ∧
      d.metadata = some [(str "experiment date", str "2022-01-18")] :=
  fileStore_metadata_roundtrip testFS (cfgDepth none)
    (str "calculation1/input.in") [(str "experiment date", str "2022-01-18")]
    rfl (by decide)

end Maggma
